import Mathlib

/-!
Shallow embedding of `src/main.py` (class `TextbookSimilarityAnalyzer`),
a textbook word-frequency and similarity analyzer.

Python strings are modelled as `List Char`; Python float division is
modelled exactly, by `ℚ`; the file system is modelled as a function from
file paths to a `ReadResult` (successful content, a missing file, or any
other read error).  Python's `Counter` iterates keys in first-occurrence
order, and `Counter.most_common` / `list.sort(reverse=True)` are stable
descending sorts; both are modelled by an explicit stable insertion sort.
-/

/-- A word (Python string) is a list of characters. -/
abbrev Word := List Char

/-- The whitespace class used by `re`'s `\s` and `str.split()` (ASCII part):
space, tab, newline, carriage return, vertical tab, form feed. -/
def isPySpace (c : Char) : Bool :=
  c = ' ' || c = '\t' || c = '\n' || c = '\r' || c = '\x0b' || c = '\x0c'

/-- The character class `[a-zA-Z0-9]` of the regex in `clean_text`. -/
def isAsciiAlnum (c : Char) : Bool :=
  (97 ≤ c.toNat && c.toNat ≤ 122) || (65 ≤ c.toNat && c.toNat ≤ 90) ||
    (48 ≤ c.toNat && c.toNat ≤ 57)

/-- An uppercase letter or digit (`[A-Z0-9]`). -/
def isUpperAlnum (c : Char) : Bool :=
  (65 ≤ c.toNat && c.toNat ≤ 90) || (48 ≤ c.toNat && c.toNat ≤ 57)

/-- Python `re.sub(r'[^a-zA-Z0-9\s]', ' ', text)`: every character that is not
alphanumeric or whitespace becomes a space. -/
def substituteNonAlnum (text : List Char) : List Char :=
  text.map (fun c => if isAsciiAlnum c || isPySpace c then c else ' ')

/-- Python `str.upper()` on the characters that can occur after the substitution
(ASCII alphanumerics and whitespace): ASCII uppercasing. -/
def upperChars (s : List Char) : List Char :=
  s.map Char.toUpper

/-- Helper for `wsGroups`: push a non-space character onto the current
(front) group. -/
def addChar (c : Char) : List Word → List Word
  | [] => [[c]]
  | t :: ts => (c :: t) :: ts

/-- Split a character list at whitespace, keeping empty groups. -/
def wsGroups : List Char → List Word
  | [] => []
  | c :: cs => if isPySpace c then [] :: wsGroups cs else addChar c (wsGroups cs)

/-- Python `str.split()` (no separator): split on whitespace runs, dropping empty
tokens. -/
def pySplit (s : List Char) : List Word :=
  (wsGroups s).filter (fun t => decide (t ≠ []))

/-- Source `clean_text` (src/main.py lines 11-21): substitute non-alphanumerics by
spaces, uppercase, split on whitespace dropping empties. -/
def clean_text (text : List Char) : List Word :=
  pySplit (upperChars (substituteNonAlnum text))

/-- Source `self.stop_words = {"A", "AND", "AN", "OF", "IN", "THE"}` (line 9). -/
def stop_words : List Word :=
  ["A", "AND", "AN", "OF", "IN", "THE"].map String.toList

/-- The intermediate `filtered_words` list of `get_top_frequent_words`
(line 28): the tokens that are not stop words. -/
def filteredWords (words : List Word) : List Word :=
  words.filter (fun w => decide (w ∉ stop_words))

/-- Keep the elements of the first list not yet seen, first occurrences
only, accumulating seen elements in the second list. -/
def dedupSeen {α : Type} [DecidableEq α] : List α → List α → List α
  | [], _ => []
  | x :: xs, seen =>
      if x ∈ seen then dedupSeen xs seen else x :: dedupSeen xs (x :: seen)

/-- First-occurrence-order list of the distinct elements of `l`: the key
order of a Python `dict` / `Counter` built by one insertion pass. -/
def dedupKeys {α : Type} [DecidableEq α] (l : List α) : List α :=
  dedupSeen l []

/-- Number of occurrences of `x` in `l` (the multiplicity recorded by
Python's `Counter`). -/
def countOcc {α : Type} [DecidableEq α] (l : List α) (x : α) : Nat :=
  l.countP (fun v => decide (v = x))

/-- Python `Counter(l).items()`: each distinct element with its multiplicity, in
first-occurrence order. -/
def counterItems {α : Type} [DecidableEq α] (l : List α) : List (α × Nat) :=
  (dedupKeys l).map (fun w => (w, countOcc l w))

/-- Insert `p` into `l` before the first element whose key is ≤ `key p`.
Used left-to-right this yields a stable descending sort. -/
def insertByKeyDesc {β : Type} (key : β → Nat) (p : β) : List β → List β
  | [] => [p]
  | q :: qs => if key q ≤ key p then p :: q :: qs else q :: insertByKeyDesc key p qs

/-- Stable sort by descending `key`: the behaviour of Python's
`sorted(..., reverse=True)` / `heapq.nlargest` on a numeric key. -/
def sortByKeyDesc {β : Type} (key : β → Nat) : List β → List β
  | [] => []
  | p :: ps => insertByKeyDesc key p (sortByKeyDesc key ps)

/-- Python `Counter.most_common(n)`: the first `n` items of the stable descending
sort of the counter's items by count. -/
def most_common {α : Type} [DecidableEq α] (items : List (α × Nat)) (n : Nat) :
    List (α × Nat) :=
  (sortByKeyDesc Prod.snd items).take n

/-- Source `get_top_frequent_words` (lines 23-36): filter out stop words, count,
return the top `top_n` (word, count) pairs and the filtered length. -/
def get_top_frequent_words (words : List Word) (top_n : Nat) :
    List (Word × Nat) × Nat :=
  let filtered_words := words.filter (fun w => decide (w ∉ stop_words))
  let word_count := counterItems filtered_words
  let top_words := most_common word_count top_n
  (top_words, filtered_words.length)

/-- Outcome of `open(filepath).read()`: content, `FileNotFoundError`, or
any other exception (with its message). -/
inductive ReadResult where
  | ok (content : List Char)
  | notFound
  | readError (msg : List Char)
deriving DecidableEq

/-- The per-document record built by `analyze_textbook` (lines 57-63). -/
structure Analysis where
  filepath : List Char
  top_words : List (Word × Nat)
  normalized_frequencies : List (Word × ℚ)
  total_words : Nat
  top_15_words : List Word
deriving DecidableEq

/-- Source `analyze_textbook` (lines 38-70): read the file, tokenize, take the top
15 words, attach normalized frequencies; any read error yields `none`. -/
def analyze_textbook (filepath : List Char) (readResult : ReadResult) :
    Option Analysis :=
  match readResult with
  | .ok content =>
    let words := clean_text content
    let r := get_top_frequent_words words 15
    let top_words := r.1
    let total_words := r.2
    some
      { filepath := filepath
        top_words := top_words
        normalized_frequencies :=
          top_words.map (fun p =>
            (p.1, if total_words > 0 then (p.2 : ℚ) / (total_words : ℚ) else 0))
        total_words := total_words
        top_15_words := top_words.map Prod.fst }
  | .notFound => none
  | .readError _ => none

/-- Sum of the normalized frequencies recorded in an analysis. -/
def sumNormFreq (a : Analysis) : ℚ :=
  (a.normalized_frequencies.map Prod.snd).sum

/-- The error message printed by `analyze_textbook` on failure (lines
65-70); `none` when the read succeeded. -/
def analyze_textbook_message (filepath : List Char) : ReadResult → Option (List Char)
  | .ok _ => none
  | .notFound => some ("Error: File ".toList ++ filepath ++ " not found.".toList)
  | .readError msg =>
      some ("Error processing ".toList ++ filepath ++ ": ".toList ++ msg)

/-- The record built by `calculate_similarity` (lines 89-93); the common
words are a set (Python iterates a `set`, whose order is not specified). -/
structure Similarity where
  common_words : Finset Word
  common_count : Nat
  jaccard_similarity : ℚ
deriving DecidableEq

/-- Source `calculate_similarity` (lines 72-93) on two present analyses:
intersection and Jaccard ratio of the two top-word sets (0 on empty union). -/
def calculate_similarity (analysis1 analysis2 : Analysis) : Similarity :=
  let words1 := analysis1.top_15_words.toFinset
  let words2 := analysis2.top_15_words.toFinset
  let common_words := words1 ∩ words2
  let common_count := common_words.card
  { common_words := common_words
    common_count := common_count
    jaccard_similarity :=
      if (words1 ∪ words2).Nonempty then
        (common_count : ℚ) / (((words1 ∪ words2).card : ℚ)) else 0 }

/-- Python `dict` assignment `d[k] = v`: update in place if the key exists
(keeping its position), else append. -/
def dictInsert {α β : Type} [DecidableEq α] (k : α) (v : β) :
    List (α × β) → List (α × β)
  | [] => [(k, v)]
  | p :: ps => if p.1 = k then (k, v) :: ps else p :: dictInsert k v ps

/-- One iteration of the loop of `analyze_all_textbooks` (lines 104-107):
a successful analysis is stored under its file path, a failure is skipped. -/
def analyzeStep (fs : List Char → ReadResult)
    (analyses : List (List Char × Analysis)) (filepath : List Char) :
    List (List Char × Analysis) :=
  match analyze_textbook filepath (fs filepath) with
  | some analysis => dictInsert filepath analysis analyses
  | none => analyses

/-- Source `analyze_all_textbooks` (lines 95-116): analyze each path in order,
keeping successful analyses in a dict keyed by file path. -/
def analyze_all_textbooks (fs : List Char → ReadResult)
    (filepaths : List (List Char)) : List (List Char × Analysis) :=
  filepaths.foldl (analyzeStep fs) []

/-- Python `os.path.basename` (POSIX): the part after the last slash. -/
def basename (p : List Char) : List Char :=
  (p.reverse.takeWhile (fun c => decide (c ≠ '/'))).reverse

/-- Python `itertools.combinations(l, 2)` in its generation order. -/
def combinations2 {α : Type} : List α → List (α × α)
  | [] => []
  | x :: xs => xs.map (fun y => (x, y)) ++ combinations2 xs

/-- One entry of the list built by `find_similar_pairs` (lines 127-131). -/
structure SimEntry where
  file1 : List Char
  file2 : List Char
  similarity : Similarity
deriving DecidableEq

/-- Source `find_similar_pairs` (lines 118-136): one similarity entry per
unordered pair of analyzed documents, sorted by descending common count
(Python's stable sort). -/
def find_similar_pairs (analyses : List (List Char × Analysis)) : List SimEntry :=
  let similarities := (combinations2 analyses).map (fun pr =>
    { file1 := basename pr.1.1
      file2 := basename pr.2.1
      similarity := calculate_similarity pr.1.2 pr.2.2 : SimEntry })
  sortByKeyDesc (fun e => e.similarity.common_count) similarities

/-- The message printed when fewer than two documents were analyzed
(line 169). -/
def insufficient_message : List Char :=
  "Need at least 2 textbook files for similarity analysis.".toList

/-- Outcome of `run_analysis`: either the early exit with its message, or
the full report of ranked pairs. -/
inductive RunResult where
  | insufficient (analyses : List (List Char × Analysis)) (message : List Char)
  | report (analyses : List (List Char × Analysis)) (similarities : List SimEntry)
deriving DecidableEq

/-- Source `run_analysis` (lines 160-176): collect analyses; if fewer than two
survive, stop with the message; otherwise pair, rank and report. -/
def run_analysis (fs : List Char → ReadResult) (textbook_files : List (List Char)) :
    RunResult :=
  let analyses := analyze_all_textbooks fs textbook_files
  if analyses.length < 2 then .insufficient analyses insufficient_message
  else .report analyses (find_similar_pairs analyses)

/-! ### Helper lemmas: deduplication in first-occurrence order -/

theorem mem_dedupSeen {α : Type} [DecidableEq α] (l : List α) (seen : List α) (x : α) :
    x ∈ dedupSeen l seen ↔ x ∈ l ∧ x ∉ seen := by
  induction l generalizing seen with
  | nil => simp [dedupSeen]
  | cons y ys ih =>
    rw [dedupSeen]
    by_cases hy : y ∈ seen
    · rw [if_pos hy, ih]
      constructor
      · rintro ⟨h1, h2⟩; exact ⟨List.mem_cons_of_mem _ h1, h2⟩
      · rintro ⟨h1, h2⟩
        rcases List.mem_cons.mp h1 with rfl | h1
        · exact absurd hy h2
        · exact ⟨h1, h2⟩
    · rw [if_neg hy]
      simp only [List.mem_cons, ih, List.mem_cons, not_or]
      constructor
      · rintro (rfl | ⟨h1, h2, h3⟩)
        · exact ⟨Or.inl rfl, hy⟩
        · exact ⟨Or.inr h1, h3⟩
      · rintro ⟨rfl | h1, h2⟩
        · exact Or.inl rfl
        · by_cases hx : x = y
          · exact Or.inl hx
          · exact Or.inr ⟨h1, hx, h2⟩

theorem nodup_dedupSeen {α : Type} [DecidableEq α] (l : List α) (seen : List α) :
    (dedupSeen l seen).Nodup := by
  induction l generalizing seen with
  | nil => simp [dedupSeen]
  | cons y ys ih =>
    rw [dedupSeen]
    by_cases hy : y ∈ seen
    · rw [if_pos hy]; exact ih seen
    · rw [if_neg hy]
      refine List.Nodup.cons ?_ (ih (y :: seen))
      intro hmem
      exact ((mem_dedupSeen ys (y :: seen) y).mp hmem).2 (List.mem_cons_self _ _)

theorem mem_dedupKeys {α : Type} [DecidableEq α] (l : List α) (x : α) :
    x ∈ dedupKeys l ↔ x ∈ l := by
  rw [dedupKeys, mem_dedupSeen]; simp

theorem nodup_dedupKeys {α : Type} [DecidableEq α] (l : List α) :
    (dedupKeys l).Nodup :=
  nodup_dedupSeen l []

theorem count_add_countP_notMem_cons {α : Type} [DecidableEq α]
    (xs : List α) (x : α) (seen : List α) (hx : x ∉ seen) :
    countOcc xs x + xs.countP (fun v => decide (v ∉ x :: seen)) =
      xs.countP (fun v => decide (v ∉ seen)) := by
  induction xs with
  | nil => simp [countOcc]
  | cons y ys ih =>
    rw [countOcc, List.countP_cons, List.countP_cons, List.countP_cons]
    rw [show (List.countP (fun v => decide (v = x)) ys) = countOcc ys x from rfl]
    by_cases hyx : y = x
    · have e1 : decide (y = x) = true := decide_eq_true_eq.mpr hyx
      have e2 : decide (y ∉ x :: seen) = false := by
        subst hyx; simp
      have e3 : decide (y ∉ seen) = true := by
        subst hyx; simpa using hx
      rw [if_pos e1, if_neg (by rw [e2]; exact Bool.false_ne_true), if_pos e3]
      omega
    · have e1 : decide (y = x) = false := by simpa using hyx
      by_cases hys : y ∈ seen
      · have e2 : decide (y ∉ x :: seen) = false := by simp [hys]
        have e3 : decide (y ∉ seen) = false := by simp [hys]
        rw [if_neg (by rw [e1]; exact Bool.false_ne_true),
          if_neg (by rw [e2]; exact Bool.false_ne_true),
          if_neg (by rw [e3]; exact Bool.false_ne_true)]
        omega
      · have e2 : decide (y ∉ x :: seen) = true := by
          simp only [List.mem_cons, not_or, decide_eq_true_eq]
          exact ⟨hyx, hys⟩
        have e3 : decide (y ∉ seen) = true := by simpa using hys
        rw [if_neg (by rw [e1]; exact Bool.false_ne_true), if_pos e2, if_pos e3]
        omega

theorem countOcc_cons {α : Type} [DecidableEq α] (x : α) (xs : List α) (w : α) :
    countOcc (x :: xs) w = countOcc xs w + if x = w then 1 else 0 := by
  rw [countOcc, List.countP_cons, countOcc]
  by_cases h : x = w
  · rw [if_pos (decide_eq_true_eq.mpr h), if_pos h]
  · rw [if_neg (by simpa using h), if_neg h]

theorem dedupSeen_count_sum {α : Type} [DecidableEq α] (l : List α) (seen : List α) :
    ((dedupSeen l seen).map (fun w => countOcc l w)).sum =
      l.countP (fun v => decide (v ∉ seen)) := by
  induction l generalizing seen with
  | nil => simp [dedupSeen]
  | cons x xs ih =>
    rw [dedupSeen, List.countP_cons]
    by_cases hx : x ∈ seen
    · rw [if_pos hx, if_neg (by simp [hx])]
      have hmap : (dedupSeen xs seen).map (fun w => countOcc (x :: xs) w) =
          (dedupSeen xs seen).map (fun w => countOcc xs w) := by
        apply List.map_congr_left
        intro w hw
        have hwne : x ≠ w := by
          intro h
          exact ((mem_dedupSeen xs seen w).mp hw).2 (h ▸ hx)
        rw [countOcc_cons, if_neg hwne]
        omega
      rw [hmap, ih seen]
      omega
    · rw [if_neg hx, if_pos (by simp [hx])]
      rw [List.map_cons, List.sum_cons]
      have hmap : (dedupSeen xs (x :: seen)).map (fun w => countOcc (x :: xs) w) =
          (dedupSeen xs (x :: seen)).map (fun w => countOcc xs w) := by
        apply List.map_congr_left
        intro w hw
        have hwne : x ≠ w := by
          intro h
          exact ((mem_dedupSeen xs (x :: seen) w).mp hw).2
            (by rw [← h]; exact List.mem_cons_self _ _)
        rw [countOcc_cons, if_neg hwne]
        omega
      rw [hmap, ih (x :: seen)]
      rw [countOcc_cons, if_pos rfl]
      have := count_add_countP_notMem_cons xs x seen hx
      omega

theorem dedupKeys_count_sum {α : Type} [DecidableEq α] (l : List α) :
    ((dedupKeys l).map (fun w => countOcc l w)).sum = l.length := by
  rw [dedupKeys, dedupSeen_count_sum]
  simp [List.countP_eq_length]

theorem counterItems_fst {α : Type} [DecidableEq α] (l : List α) :
    (counterItems l).map Prod.fst = dedupKeys l := by
  rw [counterItems, List.map_map]; exact List.map_id _

theorem counterItems_snd_sum {α : Type} [DecidableEq α] (l : List α) :
    ((counterItems l).map Prod.snd).sum = l.length := by
  rw [counterItems, List.map_map]
  simpa using dedupKeys_count_sum l

theorem mem_counterItems {α : Type} [DecidableEq α] (l : List α) (p : α × Nat) :
    p ∈ counterItems l ↔ p.1 ∈ l ∧ p.2 = countOcc l p.1 := by
  rw [counterItems]
  constructor
  · intro h
    rcases List.mem_map.mp h with ⟨w, hw, rfl⟩
    exact ⟨(mem_dedupKeys l w).mp hw, rfl⟩
  · rintro ⟨h1, h2⟩
    refine List.mem_map.mpr ⟨p.1, (mem_dedupKeys l p.1).mpr h1, ?_⟩
    rw [← h2]

/-! ### Helper lemmas: the stable descending sort -/

theorem insertByKeyDesc_perm {β : Type} (key : β → Nat) (p : β) (l : List β) :
    (insertByKeyDesc key p l).Perm (p :: l) := by
  induction l with
  | nil => rfl
  | cons q qs ih =>
    rw [insertByKeyDesc]
    by_cases h : key q ≤ key p
    · rw [if_pos h]
    · rw [if_neg h]
      exact (ih.cons q).trans (List.Perm.swap p q qs)

theorem sortByKeyDesc_perm {β : Type} (key : β → Nat) (l : List β) :
    (sortByKeyDesc key l).Perm l := by
  induction l with
  | nil => rfl
  | cons p ps ih =>
    rw [sortByKeyDesc]
    exact (insertByKeyDesc_perm key p _).trans (ih.cons p)

theorem insertByKeyDesc_pairwise {β : Type} (key : β → Nat) (p : β) (l : List β)
    (h : l.Pairwise (fun a b => key b ≤ key a)) :
    (insertByKeyDesc key p l).Pairwise (fun a b => key b ≤ key a) := by
  induction l with
  | nil => simp [insertByKeyDesc]
  | cons q qs ih =>
    rw [insertByKeyDesc]
    rcases List.pairwise_cons.mp h with ⟨hq, hqs⟩
    by_cases hle : key q ≤ key p
    · rw [if_pos hle]
      refine List.pairwise_cons.mpr ⟨?_, h⟩
      intro b hb
      rcases List.mem_cons.mp hb with rfl | hb
      · exact hle
      · exact le_trans (hq b hb) hle
    · rw [if_neg hle]
      refine List.pairwise_cons.mpr ⟨?_, ih hqs⟩
      intro b hb
      have hb' := (insertByKeyDesc_perm key p qs).mem_iff.mp hb
      rcases List.mem_cons.mp hb' with rfl | h1
      · omega
      · exact hq b h1

theorem sortByKeyDesc_pairwise {β : Type} (key : β → Nat) (l : List β) :
    (sortByKeyDesc key l).Pairwise (fun a b => key b ≤ key a) := by
  induction l with
  | nil => simp [sortByKeyDesc]
  | cons p ps ih =>
    rw [sortByKeyDesc]
    exact insertByKeyDesc_pairwise key p _ ih

theorem insertByKeyDesc_filter_eq_key {β : Type} (key : β → Nat) (p : β) (l : List β)
    (k : Nat) (hp : key p = k) :
    (insertByKeyDesc key p l).filter (fun x => decide (key x = k)) =
      p :: l.filter (fun x => decide (key x = k)) := by
  induction l with
  | nil => simp [insertByKeyDesc, hp]
  | cons q qs ih =>
    rw [insertByKeyDesc]
    by_cases hle : key q ≤ key p
    · rw [if_pos hle]
      rw [List.filter_cons, if_pos (by simpa using hp)]
    · rw [if_neg hle]
      rw [List.filter_cons, List.filter_cons]
      have hq : ¬ (key q = k) := by omega
      rw [if_neg (by simpa using hq), if_neg (by simpa using hq)]
      exact ih

theorem insertByKeyDesc_filter_ne_key {β : Type} (key : β → Nat) (p : β) (l : List β)
    (k : Nat) (hp : key p ≠ k) :
    (insertByKeyDesc key p l).filter (fun x => decide (key x = k)) =
      l.filter (fun x => decide (key x = k)) := by
  induction l with
  | nil => simp [insertByKeyDesc, hp]
  | cons q qs ih =>
    rw [insertByKeyDesc]
    by_cases hle : key q ≤ key p
    · rw [if_pos hle]
      rw [List.filter_cons, if_neg (by simpa using hp)]
    · rw [if_neg hle]
      rw [List.filter_cons, List.filter_cons]
      by_cases hq : key q = k
      · rw [if_pos (by simpa using hq), if_pos (by simpa using hq), ih]
      · rw [if_neg (by simpa using hq), if_neg (by simpa using hq)]
        exact ih

theorem sortByKeyDesc_filter_eq_key {β : Type} (key : β → Nat) (l : List β) (k : Nat) :
    (sortByKeyDesc key l).filter (fun x => decide (key x = k)) =
      l.filter (fun x => decide (key x = k)) := by
  induction l with
  | nil => rfl
  | cons p ps ih =>
    rw [sortByKeyDesc, List.filter_cons]
    by_cases hp : key p = k
    · rw [insertByKeyDesc_filter_eq_key key p _ k hp, ih, if_pos (by simpa using hp)]
    · rw [insertByKeyDesc_filter_ne_key key p _ k hp, ih, if_neg (by simpa using hp)]

theorem take_filter_eq_filter_take {α : Type} (l : List α) (p : α → Bool) (n : Nat) :
    ∃ m, (l.take n).filter p = (l.filter p).take m := by
  induction l generalizing n with
  | nil => exact ⟨0, by simp⟩
  | cons x xs ih =>
    cases n with
    | zero => exact ⟨0, by simp⟩
    | succ n =>
      rcases ih n with ⟨m, hm⟩
      rw [List.take_succ_cons, List.filter_cons, List.filter_cons]
      by_cases hx : p x
      · rw [if_pos hx, if_pos hx]
        exact ⟨m + 1, by rw [List.take_succ_cons, hm]⟩
      · rw [if_neg hx, if_neg hx]
        exact ⟨m, hm⟩

/-! ### Helper lemmas: pair generation and the result dictionary -/

theorem combinations2_sublist {α : Type} {l : List α} {x y : α}
    (h : (x, y) ∈ combinations2 l) : [x, y].Sublist l := by
  induction l with
  | nil => simp [combinations2] at h
  | cons z zs ih =>
    rw [combinations2] at h
    rcases List.mem_append.mp h with h1 | h1
    · rcases List.mem_map.mp h1 with ⟨w, hw, heq⟩
      injection heq with h2 h3
      subst h2; subst h3
      exact (List.singleton_sublist.mpr hw).cons₂ _
    · exact (ih h1).cons z

theorem mem_of_mem_combinations2 {α : Type} {l : List α} {x y : α}
    (h : (x, y) ∈ combinations2 l) : x ∈ l ∧ y ∈ l := by
  have hs := combinations2_sublist h
  exact ⟨hs.mem (by simp), hs.mem (by simp)⟩

theorem combinations2_ne_of_nodup {α : Type} {l : List α} (hl : l.Nodup) {x y : α}
    (h : (x, y) ∈ combinations2 l) : x ≠ y := by
  have hs := combinations2_sublist h
  have h2 : ([x, y] : List α).Nodup := hs.nodup hl
  simpa using (List.nodup_cons.mp h2).1

theorem mem_dictInsert_fst {α β : Type} [DecidableEq α] (k : α) (v : β)
    (d : List (α × β)) (x : α) :
    x ∈ (dictInsert k v d).map Prod.fst ↔ x = k ∨ x ∈ d.map Prod.fst := by
  induction d with
  | nil => simp [dictInsert]
  | cons p ps ih =>
    rw [dictInsert]
    by_cases hp : p.1 = k
    · rw [if_pos hp]
      simp only [List.map_cons, List.mem_cons, ih, hp]
      tauto
    · rw [if_neg hp]
      simp only [List.map_cons, List.mem_cons, ih]
      tauto

theorem dictInsert_keys_nodup {α β : Type} [DecidableEq α] (k : α) (v : β)
    (d : List (α × β)) (h : (d.map Prod.fst).Nodup) :
    ((dictInsert k v d).map Prod.fst).Nodup := by
  induction d with
  | nil => simp [dictInsert]
  | cons p ps ih =>
    rw [dictInsert]
    rw [List.map_cons] at h
    rcases List.nodup_cons.mp h with ⟨hp1, hp2⟩
    by_cases hp : p.1 = k
    · rw [if_pos hp]
      simp only [List.map_cons]
      exact List.nodup_cons.mpr ⟨by rwa [← hp], hp2⟩
    · rw [if_neg hp]
      simp only [List.map_cons]
      refine List.nodup_cons.mpr ⟨?_, ih hp2⟩
      intro hmem
      rcases (mem_dictInsert_fst k v ps p.1).mp hmem with h1 | h1
      · exact hp h1
      · exact hp1 h1

/-! ### Helper lemmas: characters and tokenization -/

theorem toUpper_eq_self_of_not_lower (c : Char)
    (h : ¬(97 ≤ c.toNat ∧ c.toNat ≤ 122)) : c.toUpper = c := by
  unfold Char.toUpper
  rw [if_neg h]

theorem toNat_toUpper_of_lower (c : Char) (h : 97 ≤ c.toNat ∧ c.toNat ≤ 122) :
    c.toUpper.toNat = c.toNat - 32 := by
  unfold Char.toUpper
  rw [if_pos h, Char.ofNat, dif_pos (Or.inl (by omega))]
  rfl

theorem isPySpace_toNat_lt (c : Char) (h : isPySpace c = true) : c.toNat < 97 := by
  rw [isPySpace] at h
  simp only [Bool.or_eq_true, decide_eq_true_eq] at h
  rcases h with ((((h | h) | h) | h) | h) | h <;> subst h <;> decide

theorem addChar_chars (P : Char → Prop) (c : Char) (gs : List Word)
    (hc : P c) (h : ∀ t ∈ gs, ∀ d ∈ t, P d) :
    ∀ t ∈ addChar c gs, ∀ d ∈ t, P d := by
  cases gs with
  | nil =>
    intro t ht d hd
    rw [addChar] at ht
    rcases List.mem_singleton.mp ht with rfl
    rcases List.mem_singleton.mp hd with rfl
    exact hc
  | cons g grest =>
    intro t ht d hd
    rw [addChar] at ht
    rcases List.mem_cons.mp ht with rfl | ht
    · rcases List.mem_cons.mp hd with rfl | hd
      · exact hc
      · exact h g (List.mem_cons_self _ _) d hd
    · exact h t (List.mem_cons_of_mem _ ht) d hd

theorem wsGroups_chars (s : List Char) (Q : Char → Prop) (hs : ∀ c ∈ s, Q c) :
    ∀ t ∈ wsGroups s, ∀ d ∈ t, Q d ∧ isPySpace d = false := by
  induction s with
  | nil => simp [wsGroups]
  | cons c cs ih =>
    have hQc : Q c := hs c (List.mem_cons_self _ _)
    have hcs : ∀ d ∈ cs, Q d := fun d hd => hs d (List.mem_cons_of_mem _ hd)
    rw [wsGroups]
    by_cases hc : isPySpace c
    · rw [if_pos hc]
      intro t ht d hd
      rcases List.mem_cons.mp ht with rfl | ht
      · simp at hd
      · exact ih hcs t ht d hd
    · rw [if_neg hc]
      exact addChar_chars _ c (wsGroups cs)
        ⟨hQc, by simpa using hc⟩ (ih hcs)

theorem upperChars_substitute_mem (text : List Char) (d : Char)
    (hd : d ∈ upperChars (substituteNonAlnum text)) :
    isUpperAlnum d = true ∨ isPySpace d = true := by
  rw [upperChars] at hd
  rcases List.mem_map.mp hd with ⟨e, he, rfl⟩
  rw [substituteNonAlnum] at he
  rcases List.mem_map.mp he with ⟨c, _, rfl⟩
  by_cases h1 : isAsciiAlnum c || isPySpace c
  · rw [if_pos h1]
    rcases Bool.or_eq_true _ _ |>.mp h1 with h2 | h2
    · rw [isAsciiAlnum] at h2
      simp only [Bool.or_eq_true, Bool.and_eq_true, decide_eq_true_eq] at h2
      rcases h2 with (hlow | hup) | hdig
      · left
        rw [isUpperAlnum]
        have := toNat_toUpper_of_lower c ⟨hlow.1, hlow.2⟩
        simp only [Bool.or_eq_true, Bool.and_eq_true, decide_eq_true_eq, this]
        left; omega
      · left
        rw [toUpper_eq_self_of_not_lower c (by omega), isUpperAlnum]
        simp only [Bool.or_eq_true, Bool.and_eq_true, decide_eq_true_eq]
        left; exact hup
      · left
        rw [toUpper_eq_self_of_not_lower c (by omega), isUpperAlnum]
        simp only [Bool.or_eq_true, Bool.and_eq_true, decide_eq_true_eq]
        right; exact hdig
    · right
      rw [toUpper_eq_self_of_not_lower c (by have := isPySpace_toNat_lt c h2; omega)]
      exact h2
  · rw [if_neg h1]
    right; decide

theorem clean_text_token_chars (text : List Char) :
    ∀ t ∈ clean_text text, t ≠ [] ∧ ∀ c ∈ t, isUpperAlnum c = true := by
  intro t ht
  rw [clean_text, pySplit] at ht
  rcases List.mem_filter.mp ht with ⟨ht1, ht2⟩
  refine ⟨by simpa using ht2, ?_⟩
  intro c hc
  have hall := wsGroups_chars (upperChars (substituteNonAlnum text))
    (fun d => isUpperAlnum d = true ∨ isPySpace d = true)
    (fun d hd => upperChars_substitute_mem text d hd) t ht1 c hc
  rcases hall with ⟨hQ | hQ, hns⟩
  · exact hQ
  · rw [hQ] at hns; cases hns

/-- C2: `clean_text` returns an ordered sequence of non-empty tokens of
uppercase letters and digits, obtained by replacing each character that is
not a letter, digit or whitespace with a space, uppercasing and splitting
on whitespace; the empty string yields `[]`, and `"Hello, World! 123"`
yields `["HELLO", "WORLD", "123"]`. -/
theorem clean_text_spec :
    (∀ text : List Char, ∀ t ∈ clean_text text,
        t ≠ [] ∧ ∀ c ∈ t, isUpperAlnum c = true) ∧
    clean_text [] = [] ∧
    clean_text ("Hello, World! 123".toList) = ["HELLO", "WORLD", "123"].map String.toList :=
  ⟨clean_text_token_chars, by decide, by decide⟩

/-- Witness for C2 at the concrete input `"Hello, World! 123"`. -/
theorem clean_text_spec_witness :
    "HELLO".toList ≠ [] ∧ ∀ c ∈ "HELLO".toList, isUpperAlnum c = true :=
  clean_text_spec.1 ("Hello, World! 123".toList) ("HELLO".toList) (by decide)

/-! ### C1: `get_top_frequent_words` -/

theorem get_top_frequent_words_eq (words : List Word) (n : Nat) :
    get_top_frequent_words words n =
      ((sortByKeyDesc Prod.snd (counterItems (filteredWords words))).take n,
        (filteredWords words).length) := rfl

theorem mem_top_words_of_get (words : List Word) (n : Nat) :
    ∀ p ∈ (get_top_frequent_words words n).1,
      p.1 ∈ filteredWords words ∧ p.1 ∉ stop_words ∧
        p.2 = countOcc (filteredWords words) p.1 := by
  intro p hp
  rw [get_top_frequent_words_eq] at hp
  have hpS := (List.take_sublist n _).mem hp
  have hpci := (sortByKeyDesc_perm Prod.snd (counterItems (filteredWords words))).mem_iff.mp hpS
  rcases (mem_counterItems _ p).mp hpci with ⟨h1, h2⟩
  refine ⟨h1, ?_, h2⟩
  rcases List.mem_filter.mp h1 with ⟨_, hdec⟩
  simpa using hdec

/-- C1: for every token sequence and every N, `get_top_frequent_words`
removes exactly the stop words, returns the min(N, distinct-word-count)
(word, count) pairs with the highest counts ordered by descending count
with ties in first-occurrence order, together with the total filtered
token count; and on `["THE","CAT","SAT","ON","THE","CAT"]` with N = 2 it
returns `[("CAT",2),("SAT",1)]` with total 4. -/
theorem get_top_frequent_words_spec :
    (∀ (words : List Word) (n : Nat),
      (get_top_frequent_words words n).2 = (filteredWords words).length ∧
      (get_top_frequent_words words n).1.length =
        min n (dedupKeys (filteredWords words)).length ∧
      (∀ p ∈ (get_top_frequent_words words n).1,
        p.1 ∈ filteredWords words ∧ p.1 ∉ stop_words ∧
          p.2 = countOcc (filteredWords words) p.1) ∧
      ((get_top_frequent_words words n).1).Pairwise (fun p q => q.2 ≤ p.2) ∧
      (∀ w ∈ filteredWords words,
        w ∉ ((get_top_frequent_words words n).1).map Prod.fst →
        ∀ p ∈ (get_top_frequent_words words n).1,
          countOcc (filteredWords words) w ≤ p.2) ∧
      (∀ k : Nat, ∃ m,
        ((get_top_frequent_words words n).1).filter (fun p => decide (p.2 = k)) =
          ((counterItems (filteredWords words)).filter
            (fun p => decide (p.2 = k))).take m)) ∧
    get_top_frequent_words (["THE", "CAT", "SAT", "ON", "THE", "CAT"].map String.toList) 2 =
      ([("CAT".toList, 2), ("SAT".toList, 1)], 4) := by
  refine ⟨?_, by decide⟩
  intro words n
  rw [get_top_frequent_words_eq]
  refine ⟨rfl, ?_, ?_, ?_, ?_, ?_⟩
  · rw [List.length_take, ((sortByKeyDesc_perm _ _).length_eq : (sortByKeyDesc Prod.snd
      (counterItems (filteredWords words))).length = _), counterItems, List.length_map]
  · exact mem_top_words_of_get words n
  · exact (sortByKeyDesc_pairwise Prod.snd _).sublist (List.take_sublist n _)
  · intro w hw hnot p hp
    have hw_ci : (w, countOcc (filteredWords words) w) ∈ counterItems (filteredWords words) :=
      (mem_counterItems _ _).mpr ⟨hw, rfl⟩
    have hw_S := (sortByKeyDesc_perm Prod.snd _).mem_iff.mpr hw_ci
    have hsorted := sortByKeyDesc_pairwise Prod.snd (counterItems (filteredWords words))
    rw [← List.take_append_drop n
      (sortByKeyDesc Prod.snd (counterItems (filteredWords words)))] at hsorted hw_S
    rcases List.mem_append.mp hw_S with hmem | hmem
    · exact absurd (List.mem_map_of_mem Prod.fst hmem) hnot
    · exact (List.pairwise_append.mp hsorted).2.2 p hp _ hmem
  · intro k
    rcases take_filter_eq_filter_take
      (sortByKeyDesc Prod.snd (counterItems (filteredWords words)))
      (fun p => decide (p.2 = k)) n with ⟨m, hm⟩
    exact ⟨m, by rw [hm, sortByKeyDesc_filter_eq_key]⟩

/-- Witness for C1, applying the spec to the concrete token list of the
claim and extracting the properties of the pair `("CAT", 2)`. -/
theorem get_top_frequent_words_spec_witness :
    ("CAT".toList, 2).1 ∈
        filteredWords (["THE", "CAT", "SAT", "ON", "THE", "CAT"].map String.toList) ∧
      ("CAT".toList, 2).1 ∉ stop_words ∧
      ("CAT".toList, 2).2 =
        countOcc (filteredWords (["THE", "CAT", "SAT", "ON", "THE", "CAT"].map String.toList))
          ("CAT".toList, 2).1 :=
  (get_top_frequent_words_spec.1
    (["THE", "CAT", "SAT", "ON", "THE", "CAT"].map String.toList) 2).2.2.1
    ("CAT".toList, 2) (by decide)

/-! ### C3: `calculate_similarity` -/

theorem jaccard_similarity_eq (a1 a2 : Analysis) :
    (calculate_similarity a1 a2).jaccard_similarity =
      if (a1.top_15_words.toFinset ∪ a2.top_15_words.toFinset).Nonempty then
        ((a1.top_15_words.toFinset ∩ a2.top_15_words.toFinset).card : ℚ) /
          ((a1.top_15_words.toFinset ∪ a2.top_15_words.toFinset).card : ℚ)
      else 0 := rfl

/-- C3: for any two analyses with top-word sets S1, S2,
`calculate_similarity` returns `common_count = |S1 ∩ S2|` and
`jaccard_similarity = |S1 ∩ S2| / |S1 ∪ S2|` (0 on empty union); identical
non-empty sets give 1, disjoint sets give 0, and
`common_count ≤ min |S1| |S2|`. -/
theorem calculate_similarity_spec :
    ∀ a1 a2 : Analysis,
      (calculate_similarity a1 a2).common_count =
        (a1.top_15_words.toFinset ∩ a2.top_15_words.toFinset).card ∧
      (calculate_similarity a1 a2).jaccard_similarity =
        (if (a1.top_15_words.toFinset ∪ a2.top_15_words.toFinset).Nonempty then
          ((a1.top_15_words.toFinset ∩ a2.top_15_words.toFinset).card : ℚ) /
            ((a1.top_15_words.toFinset ∪ a2.top_15_words.toFinset).card : ℚ)
        else 0) ∧
      (a1.top_15_words.toFinset = a2.top_15_words.toFinset →
        a1.top_15_words.toFinset.Nonempty →
        (calculate_similarity a1 a2).jaccard_similarity = 1) ∧
      (Disjoint a1.top_15_words.toFinset a2.top_15_words.toFinset →
        (calculate_similarity a1 a2).jaccard_similarity = 0) ∧
      (calculate_similarity a1 a2).common_count ≤
        min a1.top_15_words.toFinset.card a2.top_15_words.toFinset.card := by
  intro a1 a2
  refine ⟨rfl, rfl, ?_, ?_, ?_⟩
  · intro heq hne
    rw [jaccard_similarity_eq, ← heq, Finset.inter_self, Finset.union_self, if_pos hne]
    have hcard : (0 : ℚ) < a1.top_15_words.toFinset.card := by
      exact_mod_cast Finset.card_pos.mpr hne
    exact div_self (ne_of_gt hcard)
  · intro hdis
    rw [jaccard_similarity_eq, Finset.disjoint_iff_inter_eq_empty.mp hdis]
    split_ifs with h
    · simp
    · rfl
  · show (a1.top_15_words.toFinset ∩ a2.top_15_words.toFinset).card ≤ _
    exact le_min
      (Finset.card_le_card Finset.inter_subset_left)
      (Finset.card_le_card Finset.inter_subset_right)

/-- Witness for C3: two identical one-word analyses have Jaccard
similarity 1. -/
theorem calculate_similarity_spec_witness :
    (calculate_similarity
      { filepath := [], top_words := [("CAT".toList, 1)],
        normalized_frequencies := [("CAT".toList, 1)], total_words := 1,
        top_15_words := ["CAT".toList] }
      { filepath := [], top_words := [("CAT".toList, 1)],
        normalized_frequencies := [("CAT".toList, 1)], total_words := 1,
        top_15_words := ["CAT".toList] }).jaccard_similarity = 1 :=
  (calculate_similarity_spec _ _).2.2.1 rfl (by decide)

/-! ### C5: stop words never reach the top words -/

/-- C5: for every raw input text and every N, no stop word occurs among
the top words of the tokenize-then-count pipeline; tokens are already
case-folded to uppercase by `clean_text` before the stop-word filter, as
the second conjunct records, and e.g. "The the tHe CAT" keeps only CAT. -/
theorem stop_words_never_in_top :
    (∀ (text : List Char) (n : Nat),
      ∀ p ∈ (get_top_frequent_words (clean_text text) n).1, p.1 ∉ stop_words) ∧
    (∀ text : List Char, ∀ t ∈ clean_text text, t.map Char.toUpper = t) ∧
    (get_top_frequent_words (clean_text ("The the tHe CAT".toList)) 15).1 =
      [("CAT".toList, 1)] := by
  refine ⟨?_, ?_, by decide⟩
  · intro text n p hp
    exact (mem_top_words_of_get (clean_text text) n p hp).2.1
  · intro text t ht
    conv_rhs => rw [← List.map_id t]
    apply List.map_congr_left
    intro c hc
    have hca := (clean_text_token_chars text t ht).2 c hc
    rw [isUpperAlnum] at hca
    simp only [Bool.or_eq_true, Bool.and_eq_true, decide_eq_true_eq] at hca
    apply toUpper_eq_self_of_not_lower
    omega

/-- Witness for C5: the stop word "THE" (however cased in the input) is
not among the top words of "The the tHe CAT". -/
theorem stop_words_never_in_top_witness :
    ("CAT".toList, 1).1 ∉ stop_words :=
  stop_words_never_in_top.1 ("The the tHe CAT".toList) 15 ("CAT".toList, 1)
    (by rw [stop_words_never_in_top.2.2]; exact List.mem_singleton.mpr rfl)

/-! ### C6 and C9: the per-document analysis record -/

theorem analyze_textbook_ok (fp content : List Char) :
    analyze_textbook fp (.ok content) = some
      { filepath := fp
        top_words := (get_top_frequent_words (clean_text content) 15).1
        normalized_frequencies :=
          (get_top_frequent_words (clean_text content) 15).1.map (fun p =>
            (p.1, if (get_top_frequent_words (clean_text content) 15).2 > 0 then
              (p.2 : ℚ) / ((get_top_frequent_words (clean_text content) 15).2 : ℚ)
            else 0))
        total_words := (get_top_frequent_words (clean_text content) 15).2
        top_15_words := (get_top_frequent_words (clean_text content) 15).1.map Prod.fst } :=
  rfl

/-- C6: every analysis produced by `analyze_textbook` has at most 15
(the configured N) top words, and its normalized frequency list assigns
each top word its count divided by the total filtered word count, or 0 if
no words survived filtering. -/
theorem analyze_textbook_invariant :
    ∀ (fp content : List Char) (a : Analysis),
      analyze_textbook fp (.ok content) = some a →
      a.top_words.length ≤ 15 ∧
      a.top_15_words.toFinset.card ≤ 15 ∧
      a.normalized_frequencies = a.top_words.map (fun p =>
        (p.1, if a.total_words > 0 then (p.2 : ℚ) / (a.total_words : ℚ) else 0)) ∧
      a.total_words = (filteredWords (clean_text content)).length := by
  intro fp content a ha
  rw [analyze_textbook_ok] at ha
  injection ha with ha
  subst ha
  refine ⟨?_, ?_, rfl, rfl⟩
  · rw [get_top_frequent_words_eq]
    exact List.length_take_le _ _
  · calc ((get_top_frequent_words (clean_text content) 15).1.map Prod.fst).toFinset.card
        ≤ ((get_top_frequent_words (clean_text content) 15).1.map Prod.fst).length :=
          List.toFinset_card_le _
      _ = (get_top_frequent_words (clean_text content) 15).1.length := List.length_map _ _
      _ ≤ 15 := by rw [get_top_frequent_words_eq]; exact List.length_take_le _ _

/-- Witness for C6 on the concrete document "cat cat". -/
theorem analyze_textbook_invariant_witness :
    ({ filepath := "f".toList, top_words := [("CAT".toList, 2)],
       normalized_frequencies := [("CAT".toList, 1)], total_words := 2,
       top_15_words := ["CAT".toList] } : Analysis).top_words.length ≤ 15 :=
  (analyze_textbook_invariant "f".toList "cat cat".toList _ (by with_unfolding_all rfl)).1

theorem natSum_pos_of_ne_nil (l : List Nat) (h : ∀ x ∈ l, 0 < x) (hne : l ≠ []) :
    0 < l.sum := by
  cases l with
  | nil => exact absurd rfl hne
  | cons x xs =>
    rw [List.sum_cons]
    have := h x (List.mem_cons_self _ _)
    omega

theorem countOcc_pos {α : Type} [DecidableEq α] (l : List α) (x : α) (h : x ∈ l) :
    0 < countOcc l x := by
  rw [countOcc, List.countP_pos_iff]
  exact ⟨x, h, by simp⟩

/-- C9 counterexample: on the empty document the top-15 selection covers
all (zero) distinct filtered words, yet the sum of the normalized
frequencies is 0, not 1 — so "sum = 1 exactly when N ≥ distinct word
count" fails as stated. -/
theorem sum_normalized_freq_counterexample :
    analyze_textbook "empty.txt".toList (.ok []) =
      some { filepath := "empty.txt".toList, top_words := [],
             normalized_frequencies := [], total_words := 0, top_15_words := [] } ∧
    (dedupKeys (filteredWords (clean_text []))).length ≤ 15 ∧
    sumNormFreq { filepath := "empty.txt".toList, top_words := [],
                  normalized_frequencies := [], total_words := 0,
                  top_15_words := [] } ≠ 1 :=
  ⟨by decide, by decide, by decide⟩

/-- C9 (amended): the sum of the normalized frequencies of an analysis is
always ≤ 1; when at least one word survived filtering it equals 1 exactly
when 15 (the configured N) is at least the number of distinct filtered
words; when no word survived, the sum is 0 (not 1). -/
theorem sum_normalized_freq_spec :
    ∀ (fp content : List Char) (a : Analysis),
      analyze_textbook fp (.ok content) = some a →
      sumNormFreq a ≤ 1 ∧
      (0 < a.total_words →
        (sumNormFreq a = 1 ↔
          (dedupKeys (filteredWords (clean_text content))).length ≤ 15)) ∧
      (a.total_words = 0 → sumNormFreq a = 0) := by
  intro fp content a ha
  rw [analyze_textbook_ok] at ha
  injection ha with ha
  subst ha
  rw [sumNormFreq]
  simp only [List.map_map]
  rw [get_top_frequent_words_eq]
  set fw := filteredWords (clean_text content) with hfw
  set ci := counterItems fw with hci
  set S := sortByKeyDesc Prod.snd ci with hS
  set totalN := fw.length with htotal
  simp only []
  by_cases h0 : totalN > 0
  · -- every normalized frequency is count / total
    have hfun : ((S.take 15).map (Prod.snd ∘ fun p : Word × Nat =>
        (p.1, if totalN > 0 then (p.2 : ℚ) / (totalN : ℚ) else 0))) =
        ((S.take 15).map (fun p : Word × Nat => ((p.2 : ℚ) * ((totalN : ℚ))⁻¹))) := by
      apply List.map_congr_left
      intro p _
      simp only [Function.comp_apply, if_pos h0, div_eq_mul_inv]
    have hsum_eq : ∀ (l : List (Word × Nat)),
        ((l.map (fun p : Word × Nat => ((p.2 : ℚ) * ((totalN : ℚ))⁻¹))).sum) =
          (((l.map Prod.snd).sum : ℕ) : ℚ) * ((totalN : ℚ))⁻¹ := by
      intro l
      rw [show (fun p : Word × Nat => ((p.2 : ℚ) * ((totalN : ℚ))⁻¹)) =
        (fun p : Word × Nat => ((fun q : Word × Nat => ((q.2 : ℚ))) p * ((totalN : ℚ))⁻¹))
        from rfl]
      rw [List.sum_map_mul_right, Nat.cast_list_sum, List.map_map]
      rfl
    -- the total of all counts is the filtered length
    have hS_perm : S.Perm ci := sortByKeyDesc_perm _ _
    have hS_sum : ((S.map Prod.snd).sum) = totalN := by
      rw [(hS_perm.map Prod.snd).sum_eq, counterItems_snd_sum]
    have hsplit : (S.map Prod.snd) = ((S.take 15).map Prod.snd) ++ ((S.drop 15).map Prod.snd) := by
      rw [← List.map_append, List.take_append_drop]
    have hparts : ((S.take 15).map Prod.snd).sum + ((S.drop 15).map Prod.snd).sum = totalN := by
      rw [← List.sum_append, ← hsplit, hS_sum]
    have htake_le : ((S.take 15).map Prod.snd).sum ≤ totalN := by omega
    have hpos : ∀ x ∈ (S.drop 15).map Prod.snd, 0 < x := by
      intro x hx
      rcases List.mem_map.mp hx with ⟨p, hp, rfl⟩
      have hp' : p ∈ ci := hS_perm.mem_iff.mp ((List.drop_sublist 15 S).mem hp)
      rcases (mem_counterItems _ p).mp hp' with ⟨h1, h2⟩
      rw [h2]
      exact countOcc_pos _ _ h1
    have hlen_iff : (S.drop 15 = []) ↔ (dedupKeys fw).length ≤ 15 := by
      rw [List.drop_eq_nil_iff]
      constructor
      · intro h
        have : S.length = ci.length := hS_perm.length_eq
        rw [this, hci, counterItems, List.length_map] at h
        exact h
      · intro h
        rw [hS_perm.length_eq, hci, counterItems, List.length_map]
        exact h
    constructor
    · -- sum ≤ 1
      rw [hfun, hsum_eq]
      rw [← div_eq_mul_inv]
      rw [div_le_one (by exact_mod_cast h0)]
      exact_mod_cast htake_le
    refine ⟨fun _ => ?_, fun hz => absurd hz (by omega)⟩
    rw [hfun, hsum_eq, ← div_eq_mul_inv]
    rw [div_eq_one_iff_eq (show ((totalN : ℚ)) ≠ 0 from Nat.cast_ne_zero.mpr (by omega))]
    constructor
    · intro heq
      have heq' : ((S.take 15).map Prod.snd).sum = totalN := by exact_mod_cast heq
      have hdrop0 : ((S.drop 15).map Prod.snd).sum = 0 := by omega
      have hnil : (S.drop 15).map Prod.snd = [] := by
        by_contra hne
        have := natSum_pos_of_ne_nil _ hpos hne
        omega
      exact hlen_iff.mp (List.map_eq_nil_iff.mp hnil)
    · intro hle
      have hdrop : S.drop 15 = [] := hlen_iff.mpr hle
      have : S.take 15 = S := by
        rw [List.take_of_length_le]
        rw [← List.drop_eq_nil_iff]
        exact hdrop
      rw [this, hS_sum]
  · -- no words survived: every frequency is 0
    have hz : totalN = 0 := by omega
    have hmap0 : ((S.take 15).map (Prod.snd ∘ fun p : Word × Nat =>
        (p.1, if totalN > 0 then (p.2 : ℚ) / (totalN : ℚ) else 0))) =
        ((S.take 15).map (fun _ : Word × Nat => (0 : ℚ))) := by
      apply List.map_congr_left
      intro p _
      simp only [Function.comp_apply, if_neg h0]
    rw [hmap0]
    have hsum0 : ((S.take 15).map (fun _ : Word × Nat => (0 : ℚ))).sum = 0 := by
      simp
    rw [hsum0]
    exact ⟨by norm_num, fun hpos0 => absurd hpos0 (by omega), fun _ => rfl⟩

/-- Witness for C9 (amended) on the document "cat cat": one distinct word,
total 2, the sum of normalized frequencies is at most 1. -/
theorem sum_normalized_freq_spec_witness :
    sumNormFreq
      ({ filepath := "f".toList, top_words := [("CAT".toList, 2)],
         normalized_frequencies := [("CAT".toList, 1)], total_words := 2,
         top_15_words := ["CAT".toList] } : Analysis) ≤ 1 :=
  (sum_normalized_freq_spec "f".toList "cat cat".toList _ (by with_unfolding_all rfl)).1

/-! ### C4: `find_similar_pairs` -/

/-- C4: `find_similar_pairs` returns one entry per unordered pair of
analyzed documents (a permutation of the entries generated in combination
order), sorted by descending common-word count, and the sort is stable:
for every count value, the entries with that count appear exactly in
combination order. -/
theorem find_similar_pairs_spec :
    ∀ analyses : List (List Char × Analysis),
      (find_similar_pairs analyses).Perm
        ((combinations2 analyses).map (fun pr =>
          ({ file1 := basename pr.1.1, file2 := basename pr.2.1,
             similarity := calculate_similarity pr.1.2 pr.2.2 } : SimEntry))) ∧
      (find_similar_pairs analyses).Pairwise
        (fun e1 e2 => e2.similarity.common_count ≤ e1.similarity.common_count) ∧
      (∀ k : Nat,
        (find_similar_pairs analyses).filter
            (fun e => decide (e.similarity.common_count = k)) =
          ((combinations2 analyses).map (fun pr =>
            ({ file1 := basename pr.1.1, file2 := basename pr.2.1,
               similarity := calculate_similarity pr.1.2 pr.2.2 } : SimEntry))).filter
            (fun e => decide (e.similarity.common_count = k))) := by
  intro analyses
  exact ⟨sortByKeyDesc_perm _ _, sortByKeyDesc_pairwise _ _,
    fun k => sortByKeyDesc_filter_eq_key _ _ k⟩

/-- Witness for C4 at the empty collection. -/
theorem find_similar_pairs_spec_witness :
    (find_similar_pairs ([] : List (List Char × Analysis))).Pairwise
      (fun e1 e2 => e2.similarity.common_count ≤ e1.similarity.common_count) :=
  (find_similar_pairs_spec []).2.1

/-! ### C7, C8, C10: the corpus runner -/

theorem mem_dictInsert {α β : Type} [DecidableEq α] (k : α) (v : β)
    (d : List (α × β)) (q : α × β) (hq : q ∈ dictInsert k v d) :
    q = (k, v) ∨ q ∈ d := by
  induction d with
  | nil => simpa [dictInsert] using hq
  | cons p ps ih =>
    rw [dictInsert] at hq
    by_cases hp : p.1 = k
    · rw [if_pos hp] at hq
      rcases List.mem_cons.mp hq with rfl | hq
      · exact Or.inl rfl
      · exact Or.inr (List.mem_cons_of_mem _ hq)
    · rw [if_neg hp] at hq
      rcases List.mem_cons.mp hq with rfl | hq
      · exact Or.inr (List.mem_cons_self _ _)
      · rcases ih hq with h | h
        · exact Or.inl h
        · exact Or.inr (List.mem_cons_of_mem _ h)

theorem mem_foldl_analyzeStep (fs : List Char → ReadResult)
    (files : List (List Char)) (acc : List (List Char × Analysis))
    (q : List Char × Analysis) (hq : q ∈ files.foldl (analyzeStep fs) acc) :
    q ∈ acc ∨ analyze_textbook q.1 (fs q.1) = some q.2 := by
  induction files generalizing acc with
  | nil => exact Or.inl hq
  | cons f rest ih =>
    rw [List.foldl_cons] at hq
    rcases ih _ hq with h | h
    · rw [analyzeStep] at h
      cases hcase : analyze_textbook f (fs f) with
      | some a =>
        rw [hcase] at h
        rcases mem_dictInsert f a acc q h with rfl | h
        · exact Or.inr hcase
        · exact Or.inl h
      | none =>
        rw [hcase] at h
        exact Or.inl h
    · exact Or.inr h

theorem foldl_analyzeStep_keys_nodup (fs : List Char → ReadResult)
    (files : List (List Char)) (acc : List (List Char × Analysis))
    (h : (acc.map Prod.fst).Nodup) :
    ((files.foldl (analyzeStep fs) acc).map Prod.fst).Nodup := by
  induction files generalizing acc with
  | nil => exact h
  | cons f rest ih =>
    rw [List.foldl_cons]
    apply ih
    rw [analyzeStep]
    cases hcase : analyze_textbook f (fs f) with
    | some a => exact dictInsert_keys_nodup f a acc h
    | none => exact h

theorem foldl_analyzeStep_filter_failed (fs : List Char → ReadResult)
    (fp : List Char) (hfp : analyze_textbook fp (fs fp) = none)
    (files : List (List Char)) (acc : List (List Char × Analysis)) :
    files.foldl (analyzeStep fs) acc =
      (files.filter (fun g => decide (g ≠ fp))).foldl (analyzeStep fs) acc := by
  induction files generalizing acc with
  | nil => rfl
  | cons f rest ih =>
    rw [List.foldl_cons, List.filter_cons]
    by_cases hf : f = fp
    · rw [if_neg (by simpa using hf)]
      have hstep : analyzeStep fs acc f = acc := by
        rw [analyzeStep, hf, hfp]
      rw [hstep]
      exact ih acc
    · rw [if_pos (by simpa using hf), List.foldl_cons]
      exact ih _

/-- C7: when fewer than two documents were successfully analyzed,
`run_analysis` stops after the collection phase with the explanatory
message, producing no pairing, ranking or similarity report. -/
theorem run_analysis_insufficient :
    ∀ (fs : List Char → ReadResult) (files : List (List Char)),
      (analyze_all_textbooks fs files).length < 2 →
      run_analysis fs files =
        RunResult.insufficient (analyze_all_textbooks fs files) insufficient_message := by
  intro fs files h
  rw [run_analysis, if_pos h]

/-- Witness for C7: a run over one unreadable file stops with the message. -/
theorem run_analysis_insufficient_witness :
    run_analysis (fun _ => ReadResult.notFound) ["a.txt".toList] =
      RunResult.insufficient
        (analyze_all_textbooks (fun _ => ReadResult.notFound) ["a.txt".toList])
        insufficient_message :=
  run_analysis_insufficient (fun _ => ReadResult.notFound) ["a.txt".toList] (by decide)

/-- C8: a document whose read fails (missing file or any other error)
yields no analysis record, is reported with a message naming its file
path, is excluded from the result collection and from every generated
pair, and the run over the remaining files is unaffected. -/
theorem failed_document_excluded :
    ∀ (fs : List Char → ReadResult) (files : List (List Char)) (fp : List Char),
      analyze_textbook fp (fs fp) = none →
      (∀ p ∈ analyze_all_textbooks fs files, p.1 ≠ fp) ∧
      (∀ pr ∈ combinations2 (analyze_all_textbooks fs files),
        pr.1.1 ≠ fp ∧ pr.2.1 ≠ fp) ∧
      analyze_all_textbooks fs files =
        analyze_all_textbooks fs (files.filter (fun g => decide (g ≠ fp))) ∧
      (∀ msg, analyze_textbook_message fp (fs fp) = some msg →
        ∃ pre post, msg = pre ++ fp ++ post) := by
  intro fs files fp hfail
  have hkey : ∀ p ∈ analyze_all_textbooks fs files, p.1 ≠ fp := by
    intro p hp heq
    rcases mem_foldl_analyzeStep fs files [] p hp with h | h
    · simp at h
    · rw [heq, hfail] at h
      cases h
  refine ⟨hkey, ?_, ?_, ?_⟩
  · intro pr hpr
    rcases mem_of_mem_combinations2 hpr with ⟨h1, h2⟩
    exact ⟨hkey _ h1, hkey _ h2⟩
  · exact foldl_analyzeStep_filter_failed fs fp hfail files []
  · intro msg hmsg
    cases hcase : fs fp with
    | ok content =>
      rw [hcase] at hfail
      rw [analyze_textbook] at hfail
      cases hfail
    | notFound =>
      rw [hcase] at hmsg
      rw [analyze_textbook_message] at hmsg
      injection hmsg with hmsg
      exact ⟨"Error: File ".toList, " not found.".toList, hmsg.symm⟩
    | readError m =>
      rw [hcase] at hmsg
      rw [analyze_textbook_message] at hmsg
      injection hmsg with hmsg
      refine ⟨"Error processing ".toList, ": ".toList ++ m, ?_⟩
      rw [← hmsg, List.append_assoc]

/-- Witness for C8: with one missing and one readable file, the run gives
the same collection as the run over the remaining files alone. -/
theorem failed_document_excluded_witness :
    analyze_all_textbooks
        (fun g => if g = "a.txt".toList then ReadResult.notFound
          else ReadResult.ok "cat".toList)
        ["a.txt".toList, "b.txt".toList] =
      analyze_all_textbooks
        (fun g => if g = "a.txt".toList then ReadResult.notFound
          else ReadResult.ok "cat".toList)
        (["a.txt".toList, "b.txt".toList].filter
          (fun g => decide (g ≠ "a.txt".toList))) :=
  (failed_document_excluded
    (fun g => if g = "a.txt".toList then ReadResult.notFound
      else ReadResult.ok "cat".toList)
    ["a.txt".toList, "b.txt".toList] "a.txt".toList (by decide)).2.2.1

/-- C10: the result collection of `analyze_all_textbooks` is keyed by file
path — its keys are pairwise distinct, so a path occurring twice in the
input keeps at most one analysis — and consequently every pair generated
for `find_similar_pairs` has two distinct file paths: no document is ever
paired with itself. -/
theorem analyze_all_textbooks_keys_nodup :
    ∀ (fs : List Char → ReadResult) (files : List (List Char)),
      ((analyze_all_textbooks fs files).map Prod.fst).Nodup ∧
      (∀ pr ∈ combinations2 (analyze_all_textbooks fs files), pr.1.1 ≠ pr.2.1) := by
  intro fs files
  have hnodup : ((analyze_all_textbooks fs files).map Prod.fst).Nodup :=
    foldl_analyzeStep_keys_nodup fs files [] (by simp)
  refine ⟨hnodup, ?_⟩
  intro pr hpr heq
  have hs := combinations2_sublist hpr
  have hs2 := hs.map Prod.fst
  have : ([pr.1.1, pr.2.1] : List (List Char)).Nodup := hs2.nodup hnodup
  rcases List.nodup_cons.mp this with ⟨h1, _⟩
  exact h1 (by rw [heq]; exact List.mem_singleton.mpr rfl)

/-- Witness for C10: duplicating the same readable path yields a single
analysis and no self-pair. -/
theorem analyze_all_textbooks_keys_nodup_witness :
    ((analyze_all_textbooks (fun _ => ReadResult.ok "cat".toList)
      ["a.txt".toList, "a.txt".toList]).map Prod.fst).Nodup :=
  (analyze_all_textbooks_keys_nodup (fun _ => ReadResult.ok "cat".toList)
    ["a.txt".toList, "a.txt".toList]).1

-- Sanity checks of the embedding on the spec's concrete examples.
example :
    get_top_frequent_words (["THE", "CAT", "SAT", "ON", "THE", "CAT"].map String.toList) 2 =
      ([("CAT".toList, 2), ("SAT".toList, 1)], 4) := by decide

example :
    clean_text "Hello, World! 123".toList =
      ["HELLO", "WORLD", "123"].map String.toList := by decide
